import Mathlib

/-!
Shallow embedding of the moment-detection engine of the viral-clip-generator
repository, together with theorems settling the specification claims.

Sources embedded:
* src/viral_moment_detector.py  (class ViralMomentDetector): analyze_transcript,
  _calculate_segment_scores, _generate_reasons, _merge_nearby_moments,
  get_top_moments, format_timestamp.
* src/audio_energy_detector.py: detect_energy_peaks (the hysteresis strategy).
* src/unnamed/part_000 (app copy.py): the app-level format_timestamp that
  coerces string input.

Modelling conventions: Python floats are modelled by exact rationals;
Python ints by Int/Nat; Python strings by Lean String (a list of unicode
characters, matching Python's character-sequence view); Python str.isupper
and str.lower are modelled by the ASCII Char.isUpper / Char.toLower (every
keyword in the lexicons is ASCII); Python dicts with optional keys are
structures with Option fields and .get defaults become Option.getD.
-/

namespace ViralClip

/-- the floor of a rational, through the executable Rat.floor. -/
def qfloor (q : ℚ) : ℤ := q.floor

theorem qfloor_eq_intFloor (q : ℚ) : qfloor q = Int.floor q :=
  (Rat.floor_def' q).trans Rat.floor_def.symm

/-- Python int() applied to a rational: truncation toward zero. -/
def pyInt (q : ℚ) : ℤ := if q < 0 then -(qfloor (-q)) else qfloor q

/-- Python round-half-to-even of a rational to the nearest integer
(the semantics of the round builtin on exact values). -/
def roundHalfEven (q : ℚ) : ℤ :=
  let f := qfloor q
  let r := q - f
  if r < 1/2 then f else if 1/2 < r then f + 1 else if f % 2 = 0 then f else f + 1

/-- Python round(x, 3) modelled exactly on rationals. -/
def pyRound3 (q : ℚ) : ℚ := (roundHalfEven (q * 1000) : ℚ) / 1000

/- ## String helpers (Python str operations, modelled on the character list) -/

/-- characters stripped by word.strip of the punctuation argument in the scorer. -/
def isStripChar (c : Char) : Bool := c = '.' || c = ',' || c = '!' || c = '?'

/-- Python str.strip applied with the character set of isStripChar:
removes those characters from both ends. -/
def stripPunct (s : String) : String :=
  String.mk (((s.data.dropWhile isStripChar).reverse.dropWhile isStripChar).reverse)

/-- Python str.lower. -/
def lowerStr (s : String) : String := String.mk (s.data.map Char.toLower)

/-- Python str.split with no argument: split on whitespace runs, dropping
empty pieces. -/
def splitWs (s : String) : List String :=
  ((s.data.splitOnP Char.isWhitespace).filter (fun w => w ≠ [])).map String.mk

/-- does the needle match at the front of the haystack? -/
def matchFront : List Char → List Char → Bool
  | [], _ => true
  | _ :: _, [] => false
  | n :: ns, h :: hs => n = h && matchFront ns hs

/-- Python substring containment (the in operator on strings). -/
def subOf (needle : List Char) : List Char → Bool
  | [] => matchFront needle []
  | h :: hs => matchFront needle (h :: hs) || subOf needle hs

/-- count of a single character in a string (Python str.count with a
one-character argument, occurrences cannot overlap). -/
def countChar (s : String) (c : Char) : Nat := s.data.count c

/-- number of uppercase characters (Python sum of c.isupper over the text). -/
def countUpper (s : String) : Nat := (s.data.filter Char.isUpper).length

/- ## Lexicons of ViralMomentDetector.__init__ -/

/-- self.energy_words. -/
def energy_words : List String :=
  ["insane", "crazy", "amazing", "wow", "incredible", "unbelievable",
   "shocking", "mind-blowing", "epic", "huge", "massive", "legendary",
   "perfect", "brilliant", "genius", "absolutely", "literally",
   "explosion", "explode", "destroyed", "killed", "crushed", "dominated",
   "best", "worst", "never", "always", "everyone", "nobody",
   "holy", "omg", "what", "wtf", "damn", "hell", "god"]

/-- self.hook_phrases. -/
def hook_phrases : List String :=
  ["you won\x27t believe", "wait for it", "watch this", "check this out",
   "no way", "are you kidding", "i can\x27t believe", "this is crazy",
   "hold on", "wait", "stop", "listen", "look at this", "pay attention",
   "secret", "nobody tells you", "they don\x27t want", "hidden", "truth",
   "finally", "at last", "here it is", "the moment", "revealed"]

/-- self.question_words. -/
def question_words : List String :=
  ["what", "why", "how", "when", "where", "who", "which"]

/-- self.emotion_words. -/
def emotion_words : List String :=
  ["love", "hate", "angry", "happy", "sad", "scared", "excited",
   "frustrated", "amazing", "terrible", "awesome", "horrible",
   "beautiful", "ugly", "perfect", "disaster", "nightmare", "dream"]

/-- self.conflict_words. -/
def conflict_words : List String :=
  ["fight", "argue", "debate", "versus", "against", "battle",
   "war", "conflict", "problem", "issue", "challenge", "struggle",
   "failed", "mistake", "wrong", "disaster", "catastrophe"]

/- ## Data model -/

/-- one transcript segment record; Option fields model possibly missing
dict keys, read via .get with the defaults used in analyze_transcript. -/
structure Segment where
  text : Option String
  start : Option ℚ
  duration : Option ℚ
deriving DecidableEq, Inhabited

/-- the seven dimension scores returned by _calculate_segment_scores. -/
structure Scores where
  energy_score : ℚ
  hook_score : ℚ
  emotion_score : ℚ
  question_score : ℚ
  conflict_score : ℚ
  caps_score : ℚ
  punctuation_score : ℚ
deriving DecidableEq, Inhabited

/-- a linguistic-path moment record; the duration field is absent (none)
until get_top_moments writes it. -/
structure Moment where
  start_time : ℚ
  end_time : ℚ
  text : String
  viral_score : ℚ
  scores : Scores
  reasons : List String
  duration : Option ℚ := none
deriving DecidableEq, Inhabited

/- ## _calculate_segment_scores -/

/-- count of words whose stripped, lowercased form lies in a vocabulary. -/
def countIn (words : List String) (vocab : List String) : Nat :=
  (words.filter (fun w => vocab.contains (lowerStr (stripPunct w)))).length

/-- _calculate_segment_scores(text, all_segments, current_index); text is the
already-lowercased segment text exactly as in the source (the function lowers
again internally, which is idempotent but kept faithful). -/
def calculate_segment_scores (text : String) (all_segments : List Segment)
    (current_index : Nat) : Scores :=
  let words := splitWs text
  let word_count := words.length
  if word_count = 0 then ⟨0, 0, 0, 0, 0, 0, 0⟩ else
  let energy_count := countIn words energy_words
  let energy_score : ℚ := min ((energy_count : ℚ) / (max word_count 1 : ℕ) * 3) 1
  let hook_raw : ℚ := hook_phrases.foldl
    (fun acc p => if subOf p.data (lowerStr text).data then acc + 0.4 else acc) 0
  let hook_score : ℚ := min hook_raw 1
  let emotion_count := countIn words emotion_words
  let emotion_score : ℚ := min ((emotion_count : ℚ) / (max word_count 1 : ℕ) * 3) 1
  let question_count := countIn words question_words
  let has_question_mark := text.data.contains '?'
  let question_score : ℚ :=
    min ((question_count : ℚ) / (max word_count 1 : ℕ) * 3 +
      (if has_question_mark then (0.4 : ℚ) else 0)) 1
  let conflict_count := countIn words conflict_words
  let conflict_score : ℚ := min ((conflict_count : ℚ) / (max word_count 1 : ℕ) * 3) 1
  let original_text :=
    match all_segments.get? current_index with
    | some s => s.text.getD ""
    | none => ""
  let caps_count := countUpper original_text
  let caps_ratio : ℚ := (caps_count : ℚ) / (max original_text.data.length 1 : ℕ)
  let caps_score : ℚ := min (caps_ratio * 5) 1
  let exclamation_count := countChar text '!'
  let punctuation_score : ℚ := min ((exclamation_count : ℚ) * 0.3) 1
  ⟨energy_score, hook_score, emotion_score, question_score, conflict_score,
   caps_score, punctuation_score⟩

/-- the weighted combination forming the viral score in analyze_transcript. -/
def viralCombo (s : Scores) : ℚ :=
  s.energy_score * 0.25 + s.hook_score * 0.25 + s.emotion_score * 0.15 +
  s.question_score * 0.15 + s.conflict_score * 0.10 + s.caps_score * 0.05 +
  s.punctuation_score * 0.05

/-- _generate_reasons (emoji markers of the source strings are elided;
only identity of the tags matters for the merge-step dedup). -/
def generate_reasons (s : Scores) : List String :=
  let r :=
    (if s.energy_score > 0.5 then ["High-energy language"] else []) ++
    (if s.hook_score > 0.3 then ["Attention-grabbing hook"] else []) ++
    (if s.emotion_score > 0.5 then ["Strong emotional content"] else []) ++
    (if s.question_score > 0.5 then ["Creates curiosity"] else []) ++
    (if s.conflict_score > 0.5 then ["Drama/conflict"] else []) ++
    (if s.caps_score > 0.3 then ["Emphasis/excitement"] else []) ++
    (if s.punctuation_score > 0.3 then ["Exclamation/intensity"] else [])
  if r = [] then ["High engagement potential"] else r

/- ## analyze_transcript -/

/-- the per-segment candidate-building loop of analyze_transcript: keeps a
moment exactly when the weighted viral score exceeds 0.15; the stored
viral_score is rounded to three decimals as in the source. -/
def candidateMoments (ts : List Segment) : List Moment :=
  ts.enum.filterMap (fun p =>
    let i := p.1
    let segment := p.2
    let text := lowerStr (segment.text.getD "")
    let start_time := segment.start.getD 0
    let dur := segment.duration.getD 5
    let scores := calculate_segment_scores text ts i
    let viral_score := viralCombo scores
    if viral_score > 0.15 then
      some {
        start_time := start_time
        end_time := start_time + dur
        text := segment.text.getD ""
        viral_score := pyRound3 viral_score
        scores := scores
        reasons := generate_reasons scores }
    else none)

/-- the comparison of moments.sort(key=viral_score, reverse=True):
descending order on viral_score. -/
def scoreGe (a b : Moment) : Prop := b.viral_score ≤ a.viral_score

instance : DecidableRel scoreGe :=
  fun a b => inferInstanceAs (Decidable (b.viral_score ≤ a.viral_score))

instance : IsTotal Moment scoreGe := ⟨fun a b => le_total b.viral_score a.viral_score⟩

instance : IsTrans Moment scoreGe := ⟨fun _ _ _ h h2 => le_trans h2 h⟩

/-- the sort step of analyze_transcript. Python list.sort with reverse=True is
a stable descending sort (equal keys keep discovery order); its output is the
unique stably-sorted rearrangement, here realised by the stable insertionSort. -/
def sortByScoreDesc (ms : List Moment) : List Moment := ms.insertionSort scoreGe

/-- merging of one moment into the running current moment inside
_merge_nearby_moments; the Python list(set(..)) union of reasons has no
specified order and is modelled as duplicate-removing concatenation. -/
def mergeTwo (current next : Moment) : Moment :=
  { current with
    end_time := next.end_time
    text := current.text ++ " " ++ next.text
    viral_score := max current.viral_score next.viral_score
    reasons := (current.reasons ++ next.reasons).dedup }

/-- the loop of _merge_nearby_moments: current accumulates; on a gap at most
the threshold the next moment is folded in, otherwise current is emitted. -/
def mergeLoop (gap : ℚ) (current : Moment) : List Moment → List Moment
  | [] => [current]
  | next :: rest =>
    if next.start_time - current.end_time ≤ gap then
      mergeLoop gap (mergeTwo current next) rest
    else
      current :: mergeLoop gap next rest

/-- _merge_nearby_moments(moments, gap_threshold=10). -/
def merge_nearby_moments (moments : List Moment) (gap : ℚ := 10) : List Moment :=
  if moments.length ≤ 1 then moments
  else
    match moments with
    | [] => []
    | m :: rest => mergeLoop gap m rest

/-- analyze_transcript: empty input short-circuits; candidates are built,
then sorted by viral score descending, then merged. -/
def analyze_transcript (ts : List Segment) : List Moment :=
  if ts = [] then []
  else merge_nearby_moments (sortByScoreDesc (candidateMoments ts)) 10

/- ## get_top_moments -/

/-- get_top_moments(moments, n=5, min_duration=10, max_duration=60): keep
moments whose span lies in the band, record the span in the duration field,
return the first n; the source performs no sort here. -/
def get_top_moments (moments : List Moment) (n : ℕ := 5)
    (min_duration : ℚ := 10) (max_duration : ℚ := 60) : List Moment :=
  (moments.filterMap (fun m =>
    let d := m.end_time - m.start_time
    if min_duration ≤ d ∧ d ≤ max_duration then
      some { m with duration := some d }
    else none)).take n

/- ## format_timestamp (app-level helper of src/unnamed/part_000) -/

/-- two-digit zero padding of the seconds field (the 02d format code). -/
def pad2 (z : ℤ) : String :=
  if 0 ≤ z ∧ z < 10 then "0" ++ toString z else toString z

/-- MM:SS formatting shared by both format_timestamp definitions:
minutes = int(seconds // 60), secs = int(seconds % 60) with Python floor
division and modulus (the modulus is nonnegative, so int() is floor). -/
def fmtSeconds (q : ℚ) : String :=
  let minutes : ℤ := qfloor (q / 60)
  let secs : ℤ := qfloor (q - 60 * (qfloor (q / 60) : ℚ))
  toString minutes ++ ":" ++ pad2 secs

/-- Python whitespace strip of both ends, used by the int builtin. -/
def trimWs (s : String) : String :=
  String.mk (((s.data.dropWhile Char.isWhitespace).reverse.dropWhile
    Char.isWhitespace).reverse)

/-- decimal digit run to a number; none on an empty or non-digit run. -/
def digitsToNat : List Char → Option ℕ
  | [] => none
  | cs => cs.foldl (fun acc c =>
      match acc with
      | none => none
      | some n => if c.isDigit then some (n * 10 + (c.toNat - 48)) else none)
      (some 0)

/-- Python int(string): strip whitespace, optional sign, decimal digits;
none when unparsable (the except branch of the caller). -/
def parseIntStr (s : String) : Option ℤ :=
  match (trimWs s).data with
  | '-' :: rest => (digitsToNat rest).map (fun n => -(n : ℤ))
  | '+' :: rest => (digitsToNat rest).map (fun n => (n : ℤ))
  | cs => (digitsToNat cs).map (fun n => (n : ℤ))

/-- input domain of the app-level format_timestamp: a number or a string. -/
inductive TsVal where
  | num (q : ℚ)
  | str (s : String)
deriving DecidableEq

/-- format_timestamp of src/unnamed/part_000: string input is coerced with
int() inside try/except, any parse failure becomes 0; then MM:SS. -/
def format_timestamp : TsVal → String
  | TsVal.num q => fmtSeconds q
  | TsVal.str s => fmtSeconds (((parseIntStr s).getD 0 : ℤ) : ℚ)

/- ## detect_energy_peaks (audio_energy_detector.py, hysteresis strategy) -/

/-- an audio-path moment record. -/
structure Peak where
  start_time : ℚ
  end_time : ℚ
  duration : ℚ
  energy_score : ℤ
  reason : String
deriving DecidableEq, Inhabited

/-- np.min over a nonempty list (the source never calls it on empty data;
the empty case is absorbed by the except handler). -/
def listMin (l : List ℚ) : ℚ :=
  match l with
  | [] => 0
  | h :: t => t.foldl min h

/-- np.max over a nonempty list. -/
def listMax (l : List ℚ) : ℚ :=
  match l with
  | [] => 0
  | h :: t => t.foldl max h

/-- the min-max normalization (rms - min) / (max - min + 1e-10). -/
def normalizeRms (rms : List ℚ) : List ℚ :=
  rms.map (fun v => (v - listMin rms) / (listMax rms - listMin rms + (1e-10 : ℚ)))

/-- np.mean of a list; the source never takes the mean of an empty slice at
the default thresholds (rationals give 0 there, numpy would give nan). -/
def npMean (l : List ℚ) : ℚ := l.foldl (· + ·) 0 / (l.length : ℚ)

/-- Python slice l[s:e]. -/
def sliceQ (l : List ℚ) (s e : ℕ) : List ℚ := (l.drop s).take (e - s)

/-- librosa.frames_to_time(frame, sr=22050, hop_length=512). -/
def framesToTime (f : ℕ) : ℚ := (f : ℚ) * 512 / 22050

/-- the inner hysteresis loop: advance while the frame stays above the
lowered bound threshold * 0.8; returns the first index at or past i that
fails the bound (or the length). The fuel argument is only a structural
termination device: the index rises by one per step, so any fuel of at
least norm.length + 1 - i reproduces the Python while loop exactly. -/
def innerScan (norm : List ℚ) (bound : ℚ) : ℕ → ℕ → ℕ
  | 0, i => i
  | fuel + 1, i =>
    if i < norm.length ∧ bound < norm.getD i 0 then innerScan norm bound fuel (i + 1)
    else i

/-- the peak record built from a closed run [s, e). -/
def mkPeak (norm : List ℚ) (s e : ℕ) : Peak :=
  { start_time := framesToTime s
    end_time := framesToTime e
    duration := framesToTime e - framesToTime s
    energy_score := pyInt (npMean (sliceQ norm s e) * 100)
    reason := "High audio energy detected" }

/-- the outer while loop over frames: open a run where a frame exceeds the
threshold, close it with the hysteresis scan, keep it when it spans at least
min_duration seconds, and resume one frame past the run end. One fuel unit
is spent per outer iteration; the index rises by at least one each time, so
fuel norm.length + 1 - i reproduces the Python while loop exactly. -/
def outerScan (norm : List ℚ) (threshold min_duration : ℚ) : ℕ → ℕ → List Peak
  | 0, _ => []
  | fuel + 1, i =>
    if i < norm.length then
      if threshold < norm.getD i 0 then
        let e := innerScan norm (threshold * 0.8) (norm.length + 1) i
        let rest := outerScan norm threshold min_duration fuel (e + 1)
        if min_duration ≤ framesToTime e - framesToTime i then
          mkPeak norm i e :: rest
        else rest
      else outerScan norm threshold min_duration fuel (i + 1)
    else []

/-- the comparison of peaks.sort(key=energy_score, reverse=True). -/
def peakGe (a b : Peak) : Prop := b.energy_score ≤ a.energy_score

instance : DecidableRel peakGe :=
  fun a b => inferInstanceAs (Decidable (b.energy_score ≤ a.energy_score))

instance : IsTotal Peak peakGe := ⟨fun a b => le_total b.energy_score a.energy_score⟩

instance : IsTrans Peak peakGe := ⟨fun _ _ _ h h2 => le_trans h2 h⟩

/-- detect_energy_peaks(audio_path, threshold=0.7, min_duration=3), taken
from the RMS envelope on: normalize, hysteresis scan, sort by score
descending (stable, as Python list.sort), truncate to ten. An empty
envelope is the except-branch result. -/
def detect_energy_peaks (rms : List ℚ) (threshold : ℚ := 0.7)
    (min_duration : ℚ := 3) : List Peak :=
  if rms = [] then []
  else
    let norm := normalizeRms rms
    ((outerScan norm threshold min_duration (norm.length + 1) 0).insertionSort
      peakGe).take 10

/-! ## Verification -/

unseal Rat.mul Rat.inv Rat.add Rat.sub Rat.ofScientific

set_option maxRecDepth 8000

/-- concrete transcript: two chronologically ordered viral segments, the
earlier scoring 0.25 and the later scoring 0.265, separated by 95 seconds. -/
def segEarly : Segment := ⟨some "insane", some 0, some 5⟩

/-- the later, higher-scoring segment of the concrete transcript. -/
def segLate : Segment := ⟨some "insane!", some 100, some 5⟩

/- ### Order lemmas for the merge step -/

theorem mergeLoop_sorted (gap : ℚ) :
    ∀ (rest : List Moment) (cur : Moment), List.Chain' scoreGe (cur :: rest) →
      ∃ h t, mergeLoop gap cur rest = h :: t ∧ scoreGe cur h ∧
        List.Chain' scoreGe (h :: t) := by
  intro rest
  induction rest with
  | nil =>
    intro cur _
    exact ⟨cur, [], rfl, le_refl _, List.chain'_singleton cur⟩
  | cons next rest ih =>
    intro cur hch
    rw [List.chain'_cons] at hch
    obtain ⟨h1, h2⟩ := hch
    show ∃ h t,
      (if next.start_time - cur.end_time ≤ gap then
        mergeLoop gap (mergeTwo cur next) rest
      else cur :: mergeLoop gap next rest) = h :: t ∧ _ ∧ _
    by_cases hgap : next.start_time - cur.end_time ≤ gap
    · rw [if_pos hgap]
      have hm : (mergeTwo cur next).viral_score = max cur.viral_score next.viral_score := rfl
      have hchain : List.Chain' scoreGe (mergeTwo cur next :: rest) := by
        rw [List.chain'_cons'] at h2 ⊢
        refine ⟨fun y hy => ?_, h2.2⟩
        have := h2.1 y hy
        show y.viral_score ≤ (mergeTwo cur next).viral_score
        rw [hm]
        exact le_trans this (le_max_right _ _)
      obtain ⟨h, t, heq, hge, hch⟩ := ih (mergeTwo cur next) hchain
      refine ⟨h, t, heq, ?_, hch⟩
      show h.viral_score ≤ cur.viral_score
      have : h.viral_score ≤ (mergeTwo cur next).viral_score := hge
      rw [hm, max_eq_left h1] at this
      exact this
    · rw [if_neg hgap]
      obtain ⟨h, t, heq, hge, hch⟩ := ih next h2
      refine ⟨cur, mergeLoop gap next rest, rfl, le_refl _, ?_⟩
      rw [heq, List.chain'_cons]
      exact ⟨le_trans hge h1, hch⟩

theorem merge_nearby_sorted (gap : ℚ) (ms : List Moment)
    (h : List.Pairwise scoreGe ms) :
    List.Pairwise scoreGe (merge_nearby_moments ms gap) := by
  unfold merge_nearby_moments
  by_cases hl : ms.length ≤ 1
  · rw [if_pos hl]; exact h
  · rw [if_neg hl]
    match ms, h with
    | [], _ => exact List.Pairwise.nil
    | m :: rest, h =>
      have hch : List.Chain' scoreGe (m :: rest) := List.chain'_iff_pairwise.mpr h
      obtain ⟨hd, tl, heq, _, hch'⟩ := mergeLoop_sorted gap rest m hch
      show List.Pairwise scoreGe (mergeLoop gap m rest)
      rw [heq]
      exact List.chain'_iff_pairwise.mp hch'

/-- C3: for every transcript input, the list returned by analyze_transcript
is sorted by viral_score in descending order; and the sort step is stable,
so candidates with equal scores keep their original discovery order (any
pair appearing in order with equal scores stays in that order after the
sort). -/
theorem analyze_transcript_sorted_desc :
    (∀ ts : List Segment,
      List.Pairwise (fun a b : Moment => b.viral_score ≤ a.viral_score)
        (analyze_transcript ts)) ∧
    (∀ (ms : List Moment) (a b : Moment), a.viral_score = b.viral_score →
      List.Sublist [a, b] ms → List.Sublist [a, b] (sortByScoreDesc ms)) := by
  constructor
  · intro ts
    unfold analyze_transcript
    by_cases hts : ts = []
    · rw [if_pos hts]; exact List.Pairwise.nil
    · rw [if_neg hts]
      apply merge_nearby_sorted
      exact List.sorted_insertionSort scoreGe (candidateMoments ts)
  · intro ms a b hab hsub
    exact List.pair_sublist_insertionSort (le_of_eq hab.symm) hsub

/-- first of two equal-score moments witnessing the stability clause. -/
def mTieA : Moment := ⟨0, 20, "c", 0.2, ⟨0, 0, 0, 0, 0, 0, 0⟩, ["r"], none⟩

/-- second of two equal-score moments witnessing the stability clause. -/
def mTieB : Moment := ⟨0, 20, "d", 0.2, ⟨0, 0, 0, 0, 0, 0, 0⟩, ["r"], none⟩

/-- C3 witness: the stability clause applied to the equal-score pair
[mTieA, mTieB]. -/
theorem analyze_transcript_sorted_desc_witness :
    List.Sublist [mTieA, mTieB] (sortByScoreDesc [mTieA, mTieB]) :=
  analyze_transcript_sorted_desc.2 [mTieA, mTieB] mTieA mTieB rfl
    (List.Sublist.refl [mTieA, mTieB])

/-- C1: evaluation at the failing input. On the chronologically sorted
transcript [segEarly, segLate] (scores 0.25 at 0-5s and 0.265 at 100-105s),
analyze_transcript sorts by score before merging, so the merge folds the
time-distant moments together and returns a single moment whose end_time 5
lies strictly before its start_time 100, violating the stated invariant. -/
theorem analyze_transcript_end_before_start :
    ((analyze_transcript [segEarly, segLate]).map
      (fun m => (m.start_time, m.end_time))) = [(100, 5)] ∧
    ((analyze_transcript [segEarly, segLate]).getD 0 default).end_time <
      ((analyze_transcript [segEarly, segLate]).getD 0 default).start_time := by
  constructor
  · decide
  · decide

/-- C2: counterexample. In the transcript [segEarly, segLate] both segments
become candidates, the chronological gap between the first candidate's
end_time (5) and the second's start_time (100) is 95 > 10, yet the returned
list holds a single merged moment: merging does not operate on the original
chronological order. -/
theorem merge_not_chronological :
    (candidateMoments [segEarly, segLate]).length = 2 ∧
    ((candidateMoments [segEarly, segLate]).getD 1 default).start_time -
      ((candidateMoments [segEarly, segLate]).getD 0 default).end_time = 95 ∧
    (analyze_transcript [segEarly, segLate]).length = 1 := by
  refine ⟨by decide, by decide, by decide⟩

/-- C2 (amended): analyze_transcript sorts candidates by viral score
descending and only then merges; merging walks consecutive candidates in
that sorted order, folding the next candidate in when its start_time minus
the current end_time is at most the 10-second gap threshold, taking the max
of the two scores and the deduplicated union of the two reasons lists, and
keeping candidates distinct when the gap in sorted order exceeds the
threshold. -/
theorem merge_on_sorted_order :
    (∀ ts : List Segment, analyze_transcript ts =
        if ts = [] then []
        else merge_nearby_moments (sortByScoreDesc (candidateMoments ts)) 10) ∧
    (∀ (gap : ℚ) (cur next : Moment) (rest : List Moment),
        mergeLoop gap cur (next :: rest) =
          if next.start_time - cur.end_time ≤ gap then
            mergeLoop gap (mergeTwo cur next) rest
          else cur :: mergeLoop gap next rest) ∧
    (∀ a b : Moment, merge_nearby_moments [a, b] 10 =
        if b.start_time - a.end_time ≤ 10 then [mergeTwo a b] else [a, b]) ∧
    (∀ cur next : Moment,
        (mergeTwo cur next).viral_score = max cur.viral_score next.viral_score ∧
        (mergeTwo cur next).reasons = (cur.reasons ++ next.reasons).dedup) := by
  refine ⟨fun ts => rfl, fun gap cur next rest => rfl, fun a b => ?_, fun cur next => ⟨rfl, rfl⟩⟩
  show (if ([a, b] : List Moment).length ≤ 1 then [a, b]
    else mergeLoop 10 a [b]) = _
  have : ¬ ([a, b] : List Moment).length ≤ 1 := by simp
  rw [if_neg this]
  show (if b.start_time - a.end_time ≤ 10 then mergeLoop 10 (mergeTwo a b) []
    else a :: mergeLoop 10 b []) = _
  by_cases hgap : b.start_time - a.end_time ≤ 10
  · rw [if_pos hgap, if_pos hgap]; rfl
  · rw [if_neg hgap, if_neg hgap]; rfl

/- ### get_top_moments (C4) -/

/-- unsorted two-moment input for get_top_moments: lower score first. -/
def mLow : Moment := ⟨0, 20, "a", 0.2, ⟨0, 0, 0, 0, 0, 0, 0⟩, ["r"], none⟩

/-- the higher-scoring moment of the unsorted input. -/
def mHigh : Moment := ⟨0, 20, "b", 0.5, ⟨0, 0, 0, 0, 0, 0, 0⟩, ["r"], none⟩

/-- C4: counterexample. get_top_moments performs no sort: on the unsorted
input [mLow, mHigh] (scores 0.2 then 0.5, both of admissible duration 20)
the returned list keeps the input order and is not sorted by score
descending. -/
theorem get_top_moments_not_sorted :
    ¬ List.Pairwise (fun a b : Moment => b.viral_score ≤ a.viral_score)
        (get_top_moments [mLow, mHigh] 5 10 60) := by decide

/-- C4 (amended): get_top_moments returns only moments whose span end_time -
start_time lies in [min_duration, max_duration] and returns at most n
moments; the output is sorted by score descending whenever the input
already is (the function filters and truncates but never sorts). -/
theorem get_top_moments_spec (moments : List Moment) (n : ℕ) (mn mx : ℚ) :
    (∀ m ∈ get_top_moments moments n mn mx,
        mn ≤ m.end_time - m.start_time ∧ m.end_time - m.start_time ≤ mx) ∧
    (get_top_moments moments n mn mx).length ≤ n ∧
    (List.Pairwise (fun a b : Moment => b.viral_score ≤ a.viral_score) moments →
      List.Pairwise (fun a b : Moment => b.viral_score ≤ a.viral_score)
        (get_top_moments moments n mn mx)) := by
  refine ⟨?_, ?_, ?_⟩
  · intro m hm
    have hm' := List.mem_of_mem_take hm
    rw [List.mem_filterMap] at hm'
    obtain ⟨a, _, hfa⟩ := hm'
    dsimp only at hfa
    split at hfa
    · next hcond =>
      obtain rfl := Option.some_inj.mp hfa
      exact hcond
    · exact absurd hfa (by simp)
  · unfold get_top_moments
    rw [List.length_take]
    exact min_le_left n _
  · intro hs
    apply List.Pairwise.sublist (List.take_sublist _ _)
    apply List.Pairwise.filterMap
    · intro a b hab x hx y hy
      dsimp only at hx hy
      have hxs : x.viral_score = a.viral_score := by
        split at hx
        · obtain rfl := Option.mem_some_iff.mp hx; rfl
        · exact absurd hx (by simp)
      have hys : y.viral_score = b.viral_score := by
        split at hy
        · obtain rfl := Option.mem_some_iff.mp hy; rfl
        · exact absurd hy (by simp)
      rw [hxs, hys]
      exact hab
    · exact hs

/-- the filtered form mHigh takes inside get_top_moments output. -/
def mHighD : Moment := { mHigh with duration := some 20 }

/-- C4 witness: the amended statement applied to the concrete sorted input
[mHigh, mLow] with the default parameters. -/
theorem get_top_moments_spec_witness :
    ((10 : ℚ) ≤ mHighD.end_time - mHighD.start_time ∧
      mHighD.end_time - mHighD.start_time ≤ 60) ∧
    (get_top_moments [mHigh, mLow] 5 10 60).length ≤ 5 ∧
    List.Pairwise (fun a b : Moment => b.viral_score ≤ a.viral_score)
      (get_top_moments [mHigh, mLow] 5 10 60) := by
  obtain ⟨h1, h2, h3⟩ := get_top_moments_spec [mHigh, mLow] 5 10 60
  exact ⟨h1 mHighD (by decide), h2, h3 (by decide)⟩

/- ### Segment scorer bounds (C8) -/

theorem clamp01 {x : ℚ} (hx : 0 ≤ x) : 0 ≤ min x 1 ∧ min x 1 ≤ 1 :=
  ⟨le_min hx zero_le_one, min_le_right x 1⟩

theorem hook_foldl_nonneg (txt : List Char) :
    ∀ (l : List String) (acc : ℚ), 0 ≤ acc →
      0 ≤ l.foldl (fun acc p => if subOf p.data txt then acc + 0.4 else acc) acc := by
  intro l
  induction l with
  | nil => intro acc h; exact h
  | cons p l ih =>
    intro acc h
    refine ih _ ?_
    dsimp only
    by_cases hp : subOf p.data txt
    · rw [if_pos hp]; positivity
    · rw [if_neg hp]; exact h

/-- C8: all seven dimension scores produced by the segment scorer lie in
[0, 1] for every input text, every surrounding segment list and every index
(each raw score is nonnegative and clamped by min with 1; the empty-word
branch returns all zeros). -/
theorem calculate_segment_scores_bounded (text : String) (segs : List Segment)
    (i : ℕ) :
    (0 ≤ (calculate_segment_scores text segs i).energy_score ∧
      (calculate_segment_scores text segs i).energy_score ≤ 1) ∧
    (0 ≤ (calculate_segment_scores text segs i).hook_score ∧
      (calculate_segment_scores text segs i).hook_score ≤ 1) ∧
    (0 ≤ (calculate_segment_scores text segs i).emotion_score ∧
      (calculate_segment_scores text segs i).emotion_score ≤ 1) ∧
    (0 ≤ (calculate_segment_scores text segs i).question_score ∧
      (calculate_segment_scores text segs i).question_score ≤ 1) ∧
    (0 ≤ (calculate_segment_scores text segs i).conflict_score ∧
      (calculate_segment_scores text segs i).conflict_score ≤ 1) ∧
    (0 ≤ (calculate_segment_scores text segs i).caps_score ∧
      (calculate_segment_scores text segs i).caps_score ≤ 1) ∧
    (0 ≤ (calculate_segment_scores text segs i).punctuation_score ∧
      (calculate_segment_scores text segs i).punctuation_score ≤ 1) := by
  rcases hsc : calculate_segment_scores text segs i with ⟨e, hk, em, qu, co, ca, pu⟩
  dsimp only
  unfold calculate_segment_scores at hsc
  dsimp only at hsc
  split at hsc
  · injection hsc with h1 h2 h3 h4 h5 h6 h7
    subst h1 h2 h3 h4 h5 h6 h7
    norm_num
  · injection hsc with h1 h2 h3 h4 h5 h6 h7
    subst h1 h2 h3 h4 h5 h6 h7
    refine ⟨clamp01 (by positivity), clamp01 ?_, clamp01 (by positivity),
      clamp01 ?_, clamp01 (by positivity), clamp01 (by positivity),
      clamp01 (by positivity)⟩
    · exact hook_foldl_nonneg _ hook_phrases 0 (le_refl 0)
    · apply add_nonneg
      · positivity
      · split
        · norm_num
        · exact le_refl 0

/- ### Missing-key defaults (C9) -/

theorem candidate_fields (ts : List Segment) (m : Moment)
    (hm : m ∈ candidateMoments ts) :
    ∃ seg ∈ ts, m.start_time = seg.start.getD 0 ∧
      m.end_time = seg.start.getD 0 + seg.duration.getD 5 := by
  unfold candidateMoments at hm
  rw [List.mem_filterMap] at hm
  obtain ⟨p, hp, hfp⟩ := hm
  refine ⟨p.2, ?_, ?_⟩
  · have hget := List.mem_enum_iff_getElem?.mp hp
    obtain ⟨h, hl⟩ := List.getElem?_eq_some_iff.mp hget
    exact hl ▸ List.getElem_mem h
  · dsimp only at hfp
    split at hfp
    · obtain rfl := Option.some_inj.mp hfp
      exact ⟨rfl, rfl⟩
    · exact absurd hfp (by simp)

theorem candidateMoments_singleton_len (s : Segment) :
    (candidateMoments [s]).length ≤ 1 := by
  unfold candidateMoments
  rw [List.enum_cons]
  show (List.filterMap _ [(0, s)]).length ≤ 1
  rw [List.filterMap_cons]
  split
  · simp
  · simp

theorem analyze_singleton_eq (s : Segment) :
    analyze_transcript [s] = candidateMoments [s] := by
  unfold analyze_transcript
  rw [if_neg (by simp)]
  have hl := candidateMoments_singleton_len s
  match hc : candidateMoments [s], hl with
  | [], _ =>
    show merge_nearby_moments (sortByScoreDesc []) 10 = []
    rfl
  | [m], _ =>
    show merge_nearby_moments (sortByScoreDesc [m]) 10 = [m]
    rfl
  | _ :: _ :: _, hl => simp at hl

/-- C9: missing dict keys take the documented defaults in analyze_transcript:
a record without a text key behaves exactly like one whose text is the empty
string, and every moment produced from a record carrying only a text key has
start_time 0 (missing start defaults to 0) and end_time 5 (missing duration
defaults to 5, so end_time = 0 + 5). -/
theorem analyze_transcript_missing_keys :
    (∀ (st d : Option ℚ), analyze_transcript [⟨none, st, d⟩] =
        analyze_transcript [⟨some "", st, d⟩]) ∧
    (∀ t : String, ∀ m ∈ analyze_transcript [⟨some t, none, none⟩],
        m.start_time = 0 ∧ m.end_time = 5) := by
  constructor
  · intro st d; rfl
  · intro t m hm
    rw [analyze_singleton_eq] at hm
    obtain ⟨seg, hseg, h1, h2⟩ := candidate_fields _ m hm
    rw [List.mem_singleton] at hseg
    subst hseg
    refine ⟨h1, ?_⟩
    rw [h2]
    norm_num

/-- the moment produced by analyze_transcript from the text-only record
carrying the single energy word. -/
def mInsane : Moment :=
  ⟨0, 5, "insane", 0.25, ⟨1, 0, 0, 0, 0, 0, 0⟩, ["High-energy language"], none⟩

/-- C9 witness: the defaults statement applied at the concrete text-only
record whose text is the word insane. -/
theorem analyze_transcript_missing_keys_witness :
    mInsane.start_time = 0 ∧ mInsane.end_time = 5 :=
  analyze_transcript_missing_keys.2 "insane" mInsane (by decide)

/- ### format_timestamp (C6) -/

/-- C6: the app-level format_timestamp formats 125 as 2:05 and 59 as 0:59,
and treats every unparsable string (such as abc) as 0, producing 0:00
instead of raising. -/
theorem format_timestamp_spec :
    format_timestamp (TsVal.num 125) = "2:05" ∧
    format_timestamp (TsVal.num 59) = "0:59" ∧
    format_timestamp (TsVal.str "abc") = "0:00" ∧
    (∀ s : String, parseIntStr s = none → format_timestamp (TsVal.str s) = "0:00") := by
  refine ⟨by decide, by decide, by decide, fun s hs => ?_⟩
  show fmtSeconds (((parseIntStr s).getD 0 : ℤ) : ℚ) = "0:00"
  rw [hs]
  decide

/-- C6 witness: the unparsable-input clause applied at the concrete string
abc. -/
theorem format_timestamp_spec_witness :
    format_timestamp (TsVal.str "abc") = "0:00" :=
  format_timestamp_spec.2.2.2 "abc" (by decide)

/- ### Audio-path helper lemmas -/

theorem foldl_min_le_init : ∀ (t : List ℚ) (a : ℚ), t.foldl min a ≤ a := by
  intro t
  induction t with
  | nil => intro a; exact le_refl a
  | cons x t ih =>
    intro a
    exact le_trans (ih (min a x)) (min_le_left a x)

theorem foldl_min_le_mem : ∀ (t : List ℚ) (a x : ℚ), x ∈ t → t.foldl min a ≤ x := by
  intro t
  induction t with
  | nil => intro a x hx; exact absurd hx (by simp)
  | cons y t ih =>
    intro a x hx
    rcases List.mem_cons.mp hx with rfl | hx'
    · exact le_trans (foldl_min_le_init t (min a x)) (min_le_right a x)
    · exact ih (min a y) x hx'

theorem listMin_le (l : List ℚ) (x : ℚ) (hx : x ∈ l) : listMin l ≤ x := by
  match l, hx with
  | h :: t, hx =>
    show t.foldl min h ≤ x
    rcases List.mem_cons.mp hx with rfl | hx'
    · exact foldl_min_le_init t x
    · exact foldl_min_le_mem t h x hx'

theorem foldl_max_ge_init : ∀ (t : List ℚ) (a : ℚ), a ≤ t.foldl max a := by
  intro t
  induction t with
  | nil => intro a; exact le_refl a
  | cons x t ih =>
    intro a
    exact le_trans (le_max_left a x) (ih (max a x))

theorem foldl_max_ge_mem : ∀ (t : List ℚ) (a x : ℚ), x ∈ t → x ≤ t.foldl max a := by
  intro t
  induction t with
  | nil => intro a x hx; exact absurd hx (by simp)
  | cons y t ih =>
    intro a x hx
    rcases List.mem_cons.mp hx with rfl | hx'
    · exact le_trans (le_max_right a x) (foldl_max_ge_init t (max a x))
    · exact ih (max a y) x hx'

theorem le_listMax (l : List ℚ) (x : ℚ) (hx : x ∈ l) : x ≤ listMax l := by
  match l, hx with
  | h :: t, hx =>
    show x ≤ t.foldl max h
    rcases List.mem_cons.mp hx with rfl | hx'
    · exact foldl_max_ge_init t x
    · exact foldl_max_ge_mem t h x hx'

theorem foldl_add_shift : ∀ (l : List ℚ) (a : ℚ),
    l.foldl (· + ·) a = a + l.foldl (· + ·) 0 := by
  intro l
  induction l with
  | nil => intro a; show a = a + 0; ring
  | cons x t ih =>
    intro a
    show t.foldl (· + ·) (a + x) = a + t.foldl (· + ·) (0 + x)
    rw [ih (a + x), ih (0 + x)]
    ring

theorem foldl_sum_nonneg (l : List ℚ) (h : ∀ x ∈ l, 0 ≤ x) :
    0 ≤ l.foldl (· + ·) 0 := by
  induction l with
  | nil => exact le_refl 0
  | cons x t ih =>
    show (0:ℚ) ≤ t.foldl (· + ·) (0 + x)
    rw [foldl_add_shift]
    have hx := h x (by simp)
    have ht := ih (fun y hy => h y (by simp [hy]))
    linarith

theorem foldl_sum_lt_len (l : List ℚ) (hne : l ≠ []) (h : ∀ x ∈ l, x < 1) :
    l.foldl (· + ·) 0 < (l.length : ℚ) := by
  induction l with
  | nil => exact absurd rfl hne
  | cons x t ih =>
    show t.foldl (· + ·) (0 + x) < ((t.length + 1 : ℕ) : ℚ)
    rw [foldl_add_shift]
    have hx := h x (by simp)
    push_cast
    by_cases hte : t = []
    · subst hte
      show (0:ℚ) + x + List.foldl (· + ·) 0 [] < _
      simp only [List.foldl_nil, List.length_nil]
      push_cast
      linarith
    · have ht := ih hte (fun y hy => h y (by simp [hy]))
      linarith

theorem npMean_bounds (l : List ℚ) (h : ∀ x ∈ l, 0 ≤ x ∧ x < 1) :
    0 ≤ npMean l ∧ npMean l < 1 := by
  by_cases hne : l = []
  · subst hne
    show (0:ℚ) ≤ 0 / 0 ∧ (0:ℚ) / 0 < 1
    norm_num
  · have hlen : (0:ℚ) < (l.length : ℚ) := by
      have : l.length ≠ 0 := by
        intro hc; exact hne (List.length_eq_zero.mp hc)
      positivity
    unfold npMean
    constructor
    · exact div_nonneg (foldl_sum_nonneg l (fun x hx => (h x hx).1)) (le_of_lt hlen)
    · rw [div_lt_one hlen]
      exact foldl_sum_lt_len l hne (fun x hx => (h x hx).2)

theorem pyInt_bounds {q : ℚ} (h0 : 0 ≤ q) (h1 : q < 100) :
    0 ≤ pyInt q ∧ pyInt q ≤ 99 := by
  unfold pyInt
  rw [if_neg (not_lt.mpr h0), qfloor_eq_intFloor]
  refine ⟨Int.floor_nonneg.mpr h0, ?_⟩
  have : (Int.floor q : ℤ) < 100 := Int.floor_lt.mpr (by push_cast; exact h1)
  omega

theorem normalizeRms_mem_bounds (rms : List ℚ) (x : ℚ)
    (hx : x ∈ normalizeRms rms) : 0 ≤ x ∧ x < 1 := by
  unfold normalizeRms at hx
  rw [List.mem_map] at hx
  obtain ⟨v, hv, rfl⟩ := hx
  have hmin : listMin rms ≤ v := listMin_le rms v hv
  have hmax : v ≤ listMax rms := le_listMax rms v hv
  have heps : (0:ℚ) < 1e-10 := by norm_num
  have hden : 0 < listMax rms - listMin rms + (1e-10 : ℚ) := by linarith
  constructor
  · exact div_nonneg (by linarith) (le_of_lt hden)
  · rw [div_lt_one hden]; linarith

theorem getD_of_all_zero (l : List ℚ) (h : ∀ x ∈ l, x = 0) (j : ℕ) :
    l.getD j 0 = 0 := by
  rw [List.getD_eq_getElem?_getD]
  rcases hj : l[j]? with _ | a
  · rfl
  · obtain ⟨hlt, hget⟩ := List.getElem?_eq_some_iff.mp hj
    exact h a (hget ▸ List.getElem_mem hlt)

theorem foldl_min_ge : ∀ (t : List ℚ) (a c : ℚ), c ≤ a → (∀ x ∈ t, c ≤ x) →
    c ≤ t.foldl min a := by
  intro t
  induction t with
  | nil => intro a c hc _; exact hc
  | cons y t ih =>
    intro a c hc h
    exact ih (min a y) c (le_min hc (h y (by simp)))
      (fun x hx => h x (by simp [hx]))

theorem listMin_all_zero (l : List ℚ) (h : ∀ v ∈ l, v = 0) (hne : l ≠ []) :
    listMin l = 0 := by
  match l, h with
  | x :: t, h =>
    show t.foldl min x = 0
    have hx : x = 0 := h x (by simp)
    apply le_antisymm
    · rw [← hx]
      exact foldl_min_le_init t x
    · exact foldl_min_ge t x 0 (by rw [hx]) (fun v hv => (h v (by simp [hv])).ge)

/- ### outerScan lemmas -/

theorem outerScan_stop (norm : List ℚ) (t d : ℚ) (fuel i : ℕ)
    (h : norm.length ≤ i) : outerScan norm t d fuel i = [] := by
  cases fuel with
  | zero => rfl
  | succ fuel =>
    unfold outerScan
    rw [if_neg (by omega)]

theorem outerScan_all_le (norm : List ℚ) (t d : ℚ)
    (h : ∀ j, norm.getD j 0 ≤ t) :
    ∀ (fuel i : ℕ), outerScan norm t d fuel i = [] := by
  intro fuel
  induction fuel with
  | zero => intro i; rfl
  | succ fuel ih =>
    intro i
    unfold outerScan
    by_cases hi : i < norm.length
    · rw [if_pos hi, if_neg (not_lt.mpr (h i))]
      exact ih (i + 1)
    · rw [if_neg hi]

theorem outerScan_shape (norm : List ℚ) (t d : ℚ) :
    ∀ (fuel i : ℕ) (p : Peak), p ∈ outerScan norm t d fuel i →
      ∃ s e, p = mkPeak norm s e := by
  intro fuel
  induction fuel with
  | zero =>
    intro i p hp
    exact absurd hp (by simp [outerScan])
  | succ fuel ih =>
    intro i p hp
    unfold outerScan at hp
    by_cases hi : i < norm.length
    · rw [if_pos hi] at hp
      by_cases ht : t < norm.getD i 0
      · rw [if_pos ht] at hp
        dsimp only at hp
        split at hp
        · rcases List.mem_cons.mp hp with rfl | hp'
          · exact ⟨i, _, rfl⟩
          · exact ih _ p hp'
        · exact ih _ p hp
      · rw [if_neg ht] at hp
        exact ih _ p hp
    · rw [if_neg hi] at hp
      exact absurd hp (by simp)

theorem innerScan_all (norm : List ℚ) (bound : ℚ) :
    ∀ (fuel i : ℕ), (∀ j, i ≤ j → j < norm.length → bound < norm.getD j 0) →
      norm.length ≤ i + fuel →
      innerScan norm bound fuel i = max i norm.length := by
  intro fuel
  induction fuel with
  | zero =>
    intro i _ hf
    show i = max i norm.length
    rw [max_eq_left (by omega)]
  | succ fuel ih =>
    intro i h hf
    unfold innerScan
    by_cases hi : i < norm.length
    · rw [if_pos ⟨hi, h i (le_refl i) hi⟩]
      rw [ih (i + 1) (fun j hj hjl => h j (by omega) hjl) (by omega)]
      rw [max_eq_right (by omega : i + 1 ≤ norm.length),
        max_eq_right (by omega : i ≤ norm.length)]
    · have : ¬ (i < norm.length ∧ bound < norm.getD i 0) := fun hc => hi hc.1
      rw [if_neg this, max_eq_left (by omega)]

theorem outerScan_skip (norm : List ℚ) (t d : ℚ) (fuel i : ℕ)
    (hi : i < norm.length) (ht : ¬ t < norm.getD i 0) :
    outerScan norm t d (fuel + 1) i = outerScan norm t d fuel (i + 1) := by
  conv_lhs => unfold outerScan
  rw [if_pos hi, if_neg ht]

theorem outerScan_final_run (norm : List ℚ) (t d : ℚ) (fuel i : ℕ)
    (hi : i < norm.length) (ht : t < norm.getD i 0)
    (hall : ∀ j, i ≤ j → j < norm.length → t * 0.8 < norm.getD j 0)
    (hd : d ≤ framesToTime norm.length - framesToTime i) :
    outerScan norm t d (fuel + 1) i = [mkPeak norm i norm.length] := by
  unfold outerScan
  rw [if_pos hi, if_pos ht]
  have he : innerScan norm (t * 0.8) (norm.length + 1) i = max i norm.length :=
    innerScan_all norm (t * 0.8) (norm.length + 1) i hall (by omega)
  dsimp only
  rw [he, max_eq_right (le_of_lt hi),
    outerScan_stop norm t d fuel (norm.length + 1) (by omega), if_pos hd]

/- ### Audio-path claims -/

/-- C7: an all-zero RMS envelope (the envelope of an all-silent waveform:
every frame RMS is the square root of a mean of zero squares, hence zero)
produces an empty peak list under the defaults, with no error. -/
theorem detect_energy_peaks_silent (rms : List ℚ) (h : ∀ v ∈ rms, v = 0) :
    detect_energy_peaks rms = [] := by
  unfold detect_energy_peaks
  by_cases hne : rms = []
  · rw [if_pos hne]
  · rw [if_neg hne]
    dsimp only
    have hz : ∀ j, (normalizeRms rms).getD j 0 ≤ 0.7 := by
      intro j
      have hall : ∀ x ∈ normalizeRms rms, x = 0 := by
        intro x hx
        unfold normalizeRms at hx
        rw [List.mem_map] at hx
        obtain ⟨v, hv, rfl⟩ := hx
        rw [h v hv, listMin_all_zero rms h hne]
        norm_num
      rw [getD_of_all_zero _ hall j]
      norm_num
    rw [outerScan_all_le (normalizeRms rms) 0.7 3 hz _ 0]
    rfl

/-- C7 witness: the silent-envelope statement applied at a concrete
three-frame all-zero envelope. -/
theorem detect_energy_peaks_silent_witness :
    detect_energy_peaks [0, 0, 0] = [] :=
  detect_energy_peaks_silent [0, 0, 0] (by decide)

/-- C10: every moment returned by detect_energy_peaks carries an integer
energy score in [0, 99]: min-max normalization divides by
(max - min + 1e-10), so each normalized amplitude is nonnegative and
strictly below one, the run mean stays in [0, 1), and the truncated
mean times 100 never reaches 100. -/
theorem energy_score_in_range (rms : List ℚ) (threshold min_duration : ℚ)
    (p : Peak) (hp : p ∈ detect_energy_peaks rms threshold min_duration) :
    0 ≤ p.energy_score ∧ p.energy_score ≤ 99 := by
  unfold detect_energy_peaks at hp
  by_cases hne : rms = []
  · rw [if_pos hne] at hp
    exact absurd hp (by simp)
  · rw [if_neg hne] at hp
    dsimp only at hp
    have hp1 := List.mem_of_mem_take hp
    rw [List.mem_insertionSort] at hp1
    obtain ⟨s, e, rfl⟩ := outerScan_shape _ _ _ _ _ p hp1
    show 0 ≤ pyInt (npMean (sliceQ (normalizeRms rms) s e) * 100) ∧ _
    have hmean := npMean_bounds (sliceQ (normalizeRms rms) s e) (by
      intro x hx
      apply normalizeRms_mem_bounds
      exact List.mem_of_mem_drop (List.mem_of_mem_take hx))
    apply pyInt_bounds
    · have := hmean.1; linarith
    · have h100 := mul_lt_mul_of_pos_right hmean.2 (by norm_num : (0:ℚ) < 100)
      linarith

/-- the 21-frame envelope used to witness the audio-path theorems: one
below-threshold frame followed by twenty loud frames. -/
def rmsW : List ℚ := (0:ℚ) :: List.replicate 20 1

/-- the peak detect_energy_peaks extracts from rmsW at threshold 0.7 and
minimum duration 0.4. -/
def peakW : Peak := mkPeak (normalizeRms rmsW) 1 21

/-- C10 witness: the range statement applied to the concrete peak that
detect_energy_peaks returns on rmsW. -/
theorem energy_score_in_range_witness :
    0 ≤ peakW.energy_score ∧ peakW.energy_score ≤ 99 :=
  energy_score_in_range rmsW 0.7 0.4 peakW (by decide)

/-- C5 (amended): the hysteresis audio path returns at most ten moments,
sorted by energy score descending, and every returned moment is a closed
run [s, e) of the normalized envelope whose integer energy score is the
Python int() truncation of the run mean times 100 (not the nearest-integer
rounding the spec describes). -/
theorem detect_energy_peaks_spec (rms : List ℚ) (threshold min_duration : ℚ) :
    (detect_energy_peaks rms threshold min_duration).length ≤ 10 ∧
    List.Pairwise (fun a b : Peak => b.energy_score ≤ a.energy_score)
      (detect_energy_peaks rms threshold min_duration) ∧
    (∀ p ∈ detect_energy_peaks rms threshold min_duration,
      ∃ s e, p = mkPeak (normalizeRms rms) s e ∧
        p.energy_score = pyInt (npMean (sliceQ (normalizeRms rms) s e) * 100)) := by
  unfold detect_energy_peaks
  by_cases hne : rms = []
  · rw [if_pos hne]
    exact ⟨by simp, List.Pairwise.nil, by simp⟩
  · rw [if_neg hne]
    dsimp only
    refine ⟨?_, ?_, ?_⟩
    · rw [List.length_take]
      exact min_le_left _ _
    · apply List.Pairwise.sublist (List.take_sublist _ _)
      exact List.sorted_insertionSort peakGe _
    · intro p hp
      have hp1 := List.mem_of_mem_take hp
      rw [List.mem_insertionSort] at hp1
      obtain ⟨s, e, rfl⟩ := outerScan_shape _ _ _ _ _ p hp1
      exact ⟨s, e, rfl, rfl⟩

/-- C5 witness: the amended statement applied to the concrete envelope rmsW,
whose returned peak is the run [1, 21). -/
theorem detect_energy_peaks_spec_witness :
    (detect_energy_peaks rmsW 0.7 0.4).length ≤ 10 ∧
    (∃ s e, peakW = mkPeak (normalizeRms rmsW) s e ∧
      peakW.energy_score = pyInt (npMean (sliceQ (normalizeRms rmsW) s e) * 100)) := by
  obtain ⟨h1, _, h3⟩ := detect_energy_peaks_spec rmsW 0.7 0.4
  exact ⟨h1, h3 peakW (by decide)⟩

/- ### C5 counterexample: int() truncation is not rounding -/

/-- the RMS envelope of the counterexample: one silent frame, then 130
frames at the maximum amplitude (130 frames span 130 x 512 / 22050 of about
3.02 seconds, clearing the 3-second default minimum duration). -/
def rmsCex : List ℚ := (0:ℚ) :: List.replicate 130 1

/-- the normalized value of the loud frames: (1 - 0)/(1 - 0 + 1e-10),
strictly below one. -/
def nvCex : ℚ := 1 / (1 + 1e-10)

/-- the normalized envelope of the counterexample. -/
def normCex : List ℚ := (0:ℚ) :: List.replicate 130 nvCex

theorem foldl_min_zero_one : ∀ n : ℕ, (List.replicate n (1:ℚ)).foldl min 0 = 0 := by
  intro n
  induction n with
  | zero => rfl
  | succ n ih =>
    rw [List.replicate_succ]
    show (List.replicate n (1:ℚ)).foldl min (min 0 1) = 0
    rw [min_eq_left zero_le_one]
    exact ih

theorem foldl_max_one_one : ∀ n : ℕ, (List.replicate n (1:ℚ)).foldl max 1 = 1 := by
  intro n
  induction n with
  | zero => rfl
  | succ n ih =>
    rw [List.replicate_succ]
    show (List.replicate n (1:ℚ)).foldl max (max 1 1) = 1
    rw [max_self]
    exact ih

theorem listMin_cex : listMin rmsCex = 0 := foldl_min_zero_one 130

theorem listMax_cex : listMax rmsCex = 1 := by
  show (List.replicate 130 (1:ℚ)).foldl max 0 = 1
  rw [show (130:ℕ) = 129 + 1 from rfl, List.replicate_succ]
  show (List.replicate 129 (1:ℚ)).foldl max (max 0 1) = 1
  rw [max_eq_right zero_le_one]
  exact foldl_max_one_one 129

theorem normalizeRms_cex : normalizeRms rmsCex = normCex := by
  unfold normalizeRms
  rw [listMin_cex, listMax_cex]
  show ((0:ℚ) :: List.replicate 130 1).map _ = _
  rw [List.map_cons, List.map_replicate]
  unfold normCex nvCex
  norm_num

theorem getD_replicate_lt (c : ℚ) : ∀ (n j : ℕ), j < n →
    (List.replicate n c).getD j 0 = c := by
  intro n
  induction n with
  | zero => intro j hj; omega
  | succ n ih =>
    intro j hj
    rw [List.replicate_succ]
    cases j with
    | zero => rfl
    | succ j =>
      rw [List.getD_cons_succ]
      exact ih j (by omega)

theorem npMean_replicate (c : ℚ) (n : ℕ) (hn : n ≠ 0) :
    npMean (List.replicate n c) = c := by
  have hsum : ∀ m, (List.replicate m c).foldl (· + ·) 0 = (m : ℚ) * c := by
    intro m
    induction m with
    | zero => show (0:ℚ) = 0 * c; ring
    | succ m ih =>
      rw [List.replicate_succ]
      show (List.replicate m c).foldl (· + ·) (0 + c) = _
      rw [foldl_add_shift, ih]
      push_cast
      ring
  unfold npMean
  rw [hsum, List.length_replicate]
  have hq : (n : ℚ) ≠ 0 := by exact_mod_cast hn
  field_simp

theorem normCex_length : normCex.length = 131 := by
  unfold normCex
  rw [List.length_cons, List.length_replicate]

theorem outerScan_cex :
    outerScan normCex 0.7 3 (normCex.length + 1) 0 = [mkPeak normCex 1 131] := by
  rw [normCex_length]
  have h1 : outerScan normCex 0.7 3 (130 + 1 + 1) 0 = outerScan normCex 0.7 3 (130 + 1) 1 := by
    apply outerScan_skip
    · rw [normCex_length]; omega
    · show ¬ (0.7:ℚ) < normCex.getD 0 0
      unfold normCex
      rw [List.getD_cons_zero]
      norm_num
  rw [show (131:ℕ) + 1 = 130 + 1 + 1 from rfl, h1]
  have h2 : outerScan normCex 0.7 3 (130 + 1) 1 = [mkPeak normCex 1 normCex.length] := by
    apply outerScan_final_run
    · rw [normCex_length]; omega
    · show (0.7:ℚ) < normCex.getD 1 0
      unfold normCex
      rw [List.getD_cons_succ, getD_replicate_lt nvCex 130 0 (by omega)]
      unfold nvCex
      norm_num
    · intro j hj1 hj2
      rw [normCex_length] at hj2
      obtain ⟨j', rfl⟩ : ∃ j', j = j' + 1 := ⟨j - 1, by omega⟩
      show (0.7:ℚ) * 0.8 < normCex.getD (j' + 1) 0
      unfold normCex
      rw [List.getD_cons_succ, getD_replicate_lt nvCex 130 j' (by omega)]
      unfold nvCex
      norm_num
    · rw [normCex_length]
      unfold framesToTime
      norm_num
  rw [h2, normCex_length]

/-- C5: counterexample. On the envelope rmsCex the hysteresis path keeps the
single run [1, 131) of normalized amplitude 1/(1 + 1e-10); the code stores
int(mean x 100) = 99 while round(mean x 100) = 100, so the energy score is
the truncation, not the rounding the claim states. -/
theorem energy_score_truncates_not_rounds :
    detect_energy_peaks rmsCex = [mkPeak normCex 1 131] ∧
    (mkPeak normCex 1 131).energy_score = 99 ∧
    roundHalfEven (npMean (sliceQ normCex 1 131) * 100) = 100 := by
  refine ⟨?_, ?_, ?_⟩
  · unfold detect_energy_peaks
    rw [if_neg (by unfold rmsCex; simp)]
    dsimp only
    rw [normalizeRms_cex, outerScan_cex]
    rfl
  · show pyInt (npMean (sliceQ normCex 1 131) * 100) = 99
    have hs : sliceQ normCex 1 131 = List.replicate 130 nvCex := by
      unfold sliceQ normCex
      rw [List.drop_one, List.tail_cons, List.take_replicate]
      rw [show min (131 - 1) 130 = 130 from rfl]
    rw [hs, npMean_replicate nvCex 130 (by omega)]
    unfold nvCex pyInt
    rw [if_neg (by norm_num)]
    decide
  · have hs : sliceQ normCex 1 131 = List.replicate 130 nvCex := by
      unfold sliceQ normCex
      rw [List.drop_one, List.tail_cons, List.take_replicate]
      rw [show min (131 - 1) 130 = 130 from rfl]
    rw [hs, npMean_replicate nvCex 130 (by omega)]
    unfold nvCex
    decide

end ViralClip
